import Mathlib

/-!
Shallow embedding of the image-compositing node graph of yocto-canvas
(src/composite/mod.rs, src/composite/nodes.rs, src/image.rs).

Modelling conventions:
- `f32` is modelled by `ℚ`, so the arithmetic of `execute` is exact;
- `HashMap` is modelled by an association list with unique keys
  (`alookup` / `aremove` model lookup and `HashMap::remove`);
- a Rust `panic!` (including `Option::unwrap` on `None`) is modelled by an
  `Option`-valued function returning `none`;
- the unspecified `HashMap` iteration order of the removal scan in
  `NodeGraph::connect` is modelled as the list (insertion) order; every
  statement about the scan holds under the at-most-one-match condition the
  spec itself states, so the chosen order is immaterial;
- the macro `impl_node!` is expanded by hand for its single instantiation,
  `MixRgba`.  The macro gives the struct fields the same names as the slot
  string constants (`INPUT_A`, `INPUT_B`, `OUTPUT_MIX`); Lean cannot reuse a
  name for both a projection and a plain constant, so the fields are called
  `inputA`, `inputB`, `outputMix` while the string constants keep the
  original names.
-/

/-- `ImageData` (src/image.rs): an owned flat buffer of float samples. -/
structure ImageData where
  data : List ℚ
deriving DecidableEq

/-- `Port` (src/composite/mod.rs): one end of a node graph connection. -/
structure Port where
  node_name : String
  slot_name : String
deriving DecidableEq

/-- Slot-name constant `MixRgba::INPUT_A` generated by `impl_node!`. -/
def INPUT_A : String := "INPUT_A"

/-- Slot-name constant `MixRgba::INPUT_B` generated by `impl_node!`. -/
def INPUT_B : String := "INPUT_B"

/-- Slot-name constant `MixRgba::OUTPUT_MIX` generated by `impl_node!`. -/
def OUTPUT_MIX : String := "OUTPUT_MIX"

/-- The `MixRgba` node struct generated by `impl_node!` in
src/composite/nodes.rs: the `mix` configuration field, one `Option<Port>`
per input slot, one `Vec<Port>` per output slot. -/
structure MixRgba where
  mix : ℚ
  inputA : Option Port
  inputB : Option Port
  outputMix : List Port
deriving DecidableEq

/-- `MixRgba::new(mix)`. -/
def MixRgba.new (mix : ℚ) : MixRgba := ⟨mix, none, none, []⟩

/-- `Node::name` for `MixRgba`: `stringify!(MixRgba)`. -/
def MixRgba.name (_this : MixRgba) : String := "MixRgba"

/-- `Node::input_source` for `MixRgba`: match on the slot name, `None` on an
unknown slot. -/
def MixRgba.input_source (this : MixRgba) (input_slot : String) : Option Port :=
  if input_slot = INPUT_A then this.inputA
  else if input_slot = INPUT_B then this.inputB
  else none

/-- `Node::output_destinations` for `MixRgba`: match on the slot name,
`None` on an unknown slot. -/
def MixRgba.output_destinations (this : MixRgba) (output_slot : String) :
    Option (List Port) :=
  if output_slot = OUTPUT_MIX then some this.outputMix else none

/-- `Node::connect_input` for `MixRgba`: overwrite the slot's source;
`none` models the `panic!` on an unknown slot. -/
def MixRgba.connect_input (this : MixRgba) (input_slot : String)
    (source_port : Port) : Option MixRgba :=
  if input_slot = INPUT_A then some { this with inputA := some source_port }
  else if input_slot = INPUT_B then some { this with inputB := some source_port }
  else none

/-- `Node::connect_output` for `MixRgba`: push the destination onto the
slot's list; `none` models the `panic!` on an unknown slot. -/
def MixRgba.connect_output (this : MixRgba) (output_slot : String)
    (destination_port : Port) : Option MixRgba :=
  if output_slot = OUTPUT_MIX then
    some { this with outputMix := this.outputMix ++ [destination_port] }
  else none

/-- `Node::remove_output` for `MixRgba`: `Vec::retain(|port| port != destination_port)`;
`none` models the `panic!` on an unknown slot. -/
def MixRgba.remove_output (this : MixRgba) (output_slot : String)
    (destination_port : Port) : Option MixRgba :=
  if output_slot = OUTPUT_MIX then
    some { this with
           outputMix := this.outputMix.filter (fun port => decide (port ≠ destination_port)) }
  else none

/-- The `Node::has_connection` default method:
`output_destinations(slot).map_or(false, |d| d.contains(port))`. -/
def MixRgba.has_connection (this : MixRgba) (output_slot : String)
    (destination_port : Port) : Bool :=
  match this.output_destinations output_slot with
  | some destinations => decide (destination_port ∈ destinations)
  | none => false

/-- Association-list lookup, modelling `HashMap` lookup. -/
def alookup {α : Type} (k : String) : List (String × α) → Option α
  | [] => none
  | (k2, v) :: rest => if k2 = k then some v else alookup k rest

/-- Remove the entry with the given key, modelling `HashMap::remove`
(a `HashMap` holds at most one entry per key). -/
def aremove {α : Type} (k : String) : List (String × α) → List (String × α)
  | [] => []
  | (k2, v) :: rest => if k2 = k then rest else (k2, v) :: aremove k rest

/-- `MixRgba`'s `execute` closure: take (`HashMap::remove`) the two required
inputs, returning `None` if either is absent, then zip the two buffers and
mix element-wise. -/
def MixRgba.execute (this : MixRgba) (input : List (String × ImageData)) :
    Option (List (String × ImageData)) :=
  match alookup INPUT_A input with
  | none => none
  | some a =>
    match alookup INPUT_B (aremove INPUT_A input) with
    | none => none
    | some b =>
      some [(OUTPUT_MIX,
        ⟨(a.data.zip b.data).map
          (fun ab => ab.1 * this.mix + ab.2 * (1 - this.mix))⟩)]

/-- `NodeGraph` (src/composite/mod.rs): a map from instance name to node.
The only `Node` implementation in the repository is `MixRgba`, so the
boxed trait object is modelled by `MixRgba` itself. -/
structure NodeGraph where
  nodes : List (String × MixRgba)
deriving DecidableEq

/-- `NodeGraph::new()`. -/
def NodeGraph.new : NodeGraph := ⟨[]⟩

/-- `format_name` (src/composite/mod.rs): instance name number `i` for the
kind name `s`; suffix `0` renders as the empty string, any other `i` as its
decimal representation (`format!("{}", i)`). -/
def format_name (s : String) (i : Nat) : String :=
  s ++ (if i = 0 then "" else Nat.repr i)

/-- `HashMap::contains_key` on the graph's node map. -/
def NodeGraph.contains_key (g : NodeGraph) (k : String) : Bool :=
  (alookup k g.nodes).isSome

/-- The `while` loop of `NodeGraph::add`, searching for the first free
suffix starting at `i`.  The loop in the source is unbounded; here it
carries explicit fuel, and `NodeGraph.add` passes enough fuel for the
search to reach a free suffix (proved below by a pigeonhole argument). -/
def findIndex (g : NodeGraph) (s : String) : Nat → Nat → Nat
  | i, 0 => i
  | i, fuel + 1 =>
    if g.contains_key (format_name s i) then findIndex g s (i + 1) fuel else i

/-- `NodeGraph::add`: find the smallest free suffix for the node's kind
name, insert the node under the resulting name, return the name. -/
def NodeGraph.add (g : NodeGraph) (node : MixRgba) : String × NodeGraph :=
  let i := findIndex g node.name 0 (g.nodes.length + 1)
  let name := format_name node.name i
  (name, ⟨g.nodes ++ [(name, node)]⟩)

/-- Phase 1 of `NodeGraph::connect`: iterate the nodes, and on the first
node with `has_connection(from.slot_name, to)` call
`remove_output(from.slot_name, to)` and stop (`break`).  `none` models a
`panic!` inside `remove_output` (in fact unreachable, proved below). -/
def scan_remove (slot : String) (toP : Port) :
    List (String × MixRgba) → Option (List (String × MixRgba))
  | [] => some []
  | (name, node) :: rest =>
    if node.has_connection slot toP then
      (node.remove_output slot toP).map (fun node2 => (name, node2) :: rest)
    else
      (scan_remove slot toP rest).map (fun rest2 => (name, node) :: rest2)

/-- `self.nodes.get_mut(key).unwrap()` followed by a possibly-panicking
mutation of the node: `none` if the key is absent (the `unwrap` panic) or
if the mutation itself panics. -/
def update_node (key : String) (f : MixRgba → Option MixRgba) :
    List (String × MixRgba) → Option (List (String × MixRgba))
  | [] => none
  | (name, node) :: rest =>
    if name = key then (f node).map (fun node2 => (name, node2) :: rest)
    else (update_node key f rest).map (fun rest2 => (name, node) :: rest2)

/-- `NodeGraph::connect(from, to)`: the removal scan, then
`connect_output(from.slot_name, to)` on the node named `from.node_name`,
then `connect_input(to.slot_name, from)` on the node named `to.node_name`. -/
def NodeGraph.connect (g : NodeGraph) (fromP toP : Port) : Option NodeGraph := do
  let nodes1 ← scan_remove fromP.slot_name toP g.nodes
  let nodes2 ← update_node fromP.node_name
    (fun node => node.connect_output fromP.slot_name toP) nodes1
  let nodes3 ← update_node toP.node_name
    (fun node => node.connect_input toP.slot_name fromP) nodes2
  some ⟨nodes3⟩

/-! Specification-side definitions, worded after the spec's description of
the `connect` two-phase protocol, for the refinement statement of the
corresponding claim.  They are total: the spec's precondition (both node
names present, both slots declared) makes the panicking paths of the
implementation unreachable. -/

/-- Spec wording, phase 1: remove `toP` from the destination list of the
first node whose output slot named `slot` has `toP` in its destination
list; leave every other node untouched. -/
def removeFirstMatch (slot : String) (toP : Port) :
    List (String × MixRgba) → List (String × MixRgba)
  | [] => []
  | (name, node) :: rest =>
    if node.has_connection slot toP then
      (name, { node with
               outputMix := node.outputMix.filter (fun port => decide (port ≠ toP)) }) :: rest
    else (name, node) :: removeFirstMatch slot toP rest

/-- Apply `f` to the node stored under `key` (a map holds at most one entry
per key), leaving the rest of the map unchanged. -/
def update_first (key : String) (f : MixRgba → MixRgba) :
    List (String × MixRgba) → List (String × MixRgba)
  | [] => []
  | (name, node) :: rest =>
    if name = key then (name, f node) :: rest
    else (name, node) :: update_first key f rest

/-- Spec wording: set the input slot named `slot` to source from `p`
(overwriting any previous source); a declared slot is one of the two
input slots. -/
def set_input (slot : String) (p : Port) (node : MixRgba) : MixRgba :=
  if slot = INPUT_A then { node with inputA := some p }
  else if slot = INPUT_B then { node with inputB := some p }
  else node

/-- Spec wording: append `toP` to the destination list of the (single
declared) output slot. -/
def append_output (toP : Port) (node : MixRgba) : MixRgba :=
  { node with outputMix := node.outputMix ++ [toP] }

/-- The `connect` two-phase protocol exactly as the spec words it:
removal scan, then append `to` on the `from` node, then set the input
source on the `to` node. -/
def connect_spec (g : NodeGraph) (fromP toP : Port) : NodeGraph :=
  ⟨update_first toP.node_name (set_input toP.slot_name fromP)
    (update_first fromP.node_name (append_output toP)
      (removeFirstMatch fromP.slot_name toP g.nodes))⟩

/-- The single-source scenario of the spec (also the repository's own
`node_graph_connect` test): three mix nodes with factors 1.0, 0.6, 0.3;
connect `n1.OUTPUT_MIX → n2.INPUT_A`, then `n3.OUTPUT_MIX → n2.INPUT_B`,
then `n3.OUTPUT_MIX → n2.INPUT_A`. -/
def single_source_scenario : Option NodeGraph :=
  let r1 := NodeGraph.new.add (MixRgba.new 1)
  let r2 := r1.2.add (MixRgba.new (6 / 10))
  let r3 := r2.2.add (MixRgba.new (3 / 10))
  do
    let g1 ← r3.2.connect ⟨r1.1, OUTPUT_MIX⟩ ⟨r2.1, INPUT_A⟩
    let g2 ← g1.connect ⟨r3.1, OUTPUT_MIX⟩ ⟨r2.1, INPUT_B⟩
    g2.connect ⟨r3.1, OUTPUT_MIX⟩ ⟨r2.1, INPUT_A⟩

/-- Decimal value of a digit character, inverse of `Nat.digitChar` on
digits below 10; used only to prove `Nat.repr` injective. -/
def charVal (c : Char) : Nat := c.toNat - 48

/-- Decimal value of a digit string; used only to prove `Nat.repr`
injective. -/
def listVal (l : List Char) : Nat :=
  l.foldl (fun acc c => acc * 10 + charVal c) 0

theorem input_a_ne_input_b : INPUT_A ≠ INPUT_B := by decide

theorem alookup_aremove_ne {α : Type} (k k2 : String) (h : k2 ≠ k) :
    ∀ l : List (String × α), alookup k (aremove k2 l) = alookup k l := by
  intro l
  induction l with
  | nil => rfl
  | cons hd tl ih =>
    obtain ⟨k3, v⟩ := hd
    by_cases h3 : k3 = k2
    · subst h3
      have hk : k3 ≠ k := h
      simp [aremove, alookup, hk]
    · by_cases h4 : k3 = k
      · subst h4
        simp [aremove, alookup, h3]
      · simp [aremove, alookup, h3, h4, ih]

theorem execute_eq (node : MixRgba) (input : List (String × ImageData)) :
    node.execute input =
      match alookup INPUT_A input, alookup INPUT_B input with
      | some a, some b =>
        some [(OUTPUT_MIX,
          ⟨(a.data.zip b.data).map
            (fun ab => ab.1 * node.mix + ab.2 * (1 - node.mix))⟩)]
      | _, _ => none := by
  unfold MixRgba.execute
  rw [alookup_aremove_ne INPUT_B INPUT_A input_a_ne_input_b]
  cases alookup INPUT_A input <;> cases alookup INPUT_B input <;> rfl

/-- C6: execute returns nothing iff INPUT_A or INPUT_B is absent. -/
theorem execute_none_iff_missing_input (node : MixRgba)
    (input : List (String × ImageData)) :
    node.execute input = none ↔
      (alookup INPUT_A input = none ∨ alookup INPUT_B input = none) := by
  rw [execute_eq]
  cases alookup INPUT_A input <;> cases alookup INPUT_B input <;> simp

/-- C10: execute depends only on the mix factor and the two input entries. -/
theorem execute_ignores_unrelated_entries (node1 node2 : MixRgba)
    (input1 input2 : List (String × ImageData))
    (hmix : node1.mix = node2.mix)
    (hA : alookup INPUT_A input1 = alookup INPUT_A input2)
    (hB : alookup INPUT_B input1 = alookup INPUT_B input2) :
    node1.execute input1 = node2.execute input2 := by
  rw [execute_eq, execute_eq, hA, hB, hmix]

theorem execute_ignores_unrelated_entries_witness :
    (MixRgba.new (1 / 2)).execute
        [(INPUT_A, ⟨[1, 0]⟩), (INPUT_B, ⟨[0, 1]⟩), ("JUNK", ⟨[5]⟩)]
      = (⟨1 / 2, some ⟨"n", OUTPUT_MIX⟩, none, [⟨"m", INPUT_A⟩]⟩ : MixRgba).execute
        [(INPUT_B, ⟨[0, 1]⟩), (INPUT_A, ⟨[1, 0]⟩)] :=
  execute_ignores_unrelated_entries _ _ _ _ rfl rfl rfl

/-- C7: remove_output removes the destination; absent destination is a no-op. -/
theorem remove_output_removes_and_noop_when_absent (node : MixRgba) (p : Port) :
    (node.remove_output OUTPUT_MIX p).map
        (fun node2 => node2.has_connection OUTPUT_MIX p) = some false
    ∧ (p ∉ node.outputMix → node.remove_output OUTPUT_MIX p = some node) := by
  constructor
  · simp [MixRgba.remove_output, MixRgba.has_connection,
      MixRgba.output_destinations, List.mem_filter]
  · intro hp
    have hf : node.outputMix.filter (fun port => decide (port ≠ p)) = node.outputMix := by
      apply List.filter_eq_self.mpr
      intro a ha
      simp only [decide_eq_true_eq]
      intro e
      subst e
      exact hp ha
    unfold MixRgba.remove_output
    rw [if_pos rfl, hf]

theorem remove_output_removes_witness :
    ((⟨1, none, none, [⟨"b", INPUT_A⟩]⟩ : MixRgba).remove_output OUTPUT_MIX
        ⟨"c", INPUT_B⟩).map
        (fun node2 => node2.has_connection OUTPUT_MIX ⟨"c", INPUT_B⟩) = some false
    ∧ (⟨1, none, none, [⟨"b", INPUT_A⟩]⟩ : MixRgba).remove_output OUTPUT_MIX
        ⟨"c", INPUT_B⟩ = some ⟨1, none, none, [⟨"b", INPUT_A⟩]⟩ :=
  ⟨(remove_output_removes_and_noop_when_absent _ _).1,
   (remove_output_removes_and_noop_when_absent _ _).2 (by decide)⟩

theorem zip_map_getD (f : ℚ → ℚ → ℚ) :
    ∀ (l1 l2 : List ℚ) (i : Nat), i < l1.length → i < l2.length →
      ((l1.zip l2).map (fun ab => f ab.1 ab.2)).getD i 0
        = f (l1.getD i 0) (l2.getD i 0) := by
  intro l1
  induction l1 with
  | nil =>
    intro l2 i h1 _
    simp at h1
  | cons x xs ih =>
    intro l2 i h1 h2
    cases l2 with
    | nil => simp at h2
    | cons y ys =>
      cases i with
      | zero => rfl
      | succ n =>
        simp only [List.zip_cons_cons, List.map_cons, List.getD_cons_succ]
        exact ih ys n (by simpa using h1) (by simpa using h2)

/-- C4: execute mixes the two buffers element-by-element. -/
theorem execute_mixes_elementwise (node : MixRgba)
    (input : List (String × ImageData)) (a b : ImageData)
    (hA : alookup INPUT_A input = some a)
    (hB : alookup INPUT_B input = some b) :
    ∃ out : ImageData,
      node.execute input = some [(OUTPUT_MIX, out)]
      ∧ out.data.length = min a.data.length b.data.length
      ∧ (∀ i : Nat, i < a.data.length → i < b.data.length →
          out.data.getD i 0 =
            a.data.getD i 0 * node.mix + b.data.getD i 0 * (1 - node.mix))
      ∧ (MixRgba.new (1 / 2)).execute
            [(INPUT_A, ⟨[1, 0, 0, 1]⟩), (INPUT_B, ⟨[0, 1, 0, 1]⟩)]
          = some [(OUTPUT_MIX, ⟨[1 / 2, 1 / 2, 0, 1]⟩)] := by
  refine ⟨⟨(a.data.zip b.data).map
      (fun ab => ab.1 * node.mix + ab.2 * (1 - node.mix))⟩, ?_, ?_, ?_, ?_⟩
  · rw [execute_eq, hA, hB]
  · simp
  · intro i h1 h2
    exact zip_map_getD (fun u v => u * node.mix + v * (1 - node.mix)) a.data b.data i h1 h2
  · have hc : (MixRgba.new (1 / 2)).execute
        [(INPUT_A, ⟨[1, 0, 0, 1]⟩), (INPUT_B, ⟨[0, 1, 0, 1]⟩)]
        = some [(OUTPUT_MIX,
            ⟨[1 * (1 / 2) + 0 * (1 - 1 / 2), 0 * (1 / 2) + 1 * (1 - 1 / 2),
              0 * (1 / 2) + 0 * (1 - 1 / 2), 1 * (1 / 2) + 1 * (1 - 1 / 2)]⟩)] := rfl
    rw [hc]
    norm_num

theorem execute_mixes_elementwise_witness :
    ∃ out : ImageData,
      (MixRgba.new (1 / 2)).execute
          [(INPUT_A, ⟨[1, 0, 0, 1]⟩), (INPUT_B, ⟨[0, 1, 0, 1]⟩)]
        = some [(OUTPUT_MIX, out)]
      ∧ out.data.length = 4
      ∧ (∀ i : Nat, i < 4 → i < 4 →
          out.data.getD i 0 =
            (⟨[(1 : ℚ), 0, 0, 1]⟩ : ImageData).data.getD i 0 * (MixRgba.new (1 / 2)).mix
              + (⟨[(0 : ℚ), 1, 0, 1]⟩ : ImageData).data.getD i 0
                  * (1 - (MixRgba.new (1 / 2)).mix))
      ∧ (MixRgba.new (1 / 2)).execute
            [(INPUT_A, ⟨[1, 0, 0, 1]⟩), (INPUT_B, ⟨[0, 1, 0, 1]⟩)]
          = some [(OUTPUT_MIX, ⟨[1 / 2, 1 / 2, 0, 1]⟩)] := by
  have h := execute_mixes_elementwise (MixRgba.new (1 / 2))
    [(INPUT_A, ⟨[1, 0, 0, 1]⟩), (INPUT_B, ⟨[0, 1, 0, 1]⟩)]
    ⟨[1, 0, 0, 1]⟩ ⟨[0, 1, 0, 1]⟩ rfl rfl
  simpa using h

/-- C5: with inputs of different lengths, execute succeeds and truncates to the shorter. -/
theorem execute_truncates_to_shorter_input (node : MixRgba)
    (input : List (String × ImageData)) (a b : ImageData)
    (hA : alookup INPUT_A input = some a)
    (hB : alookup INPUT_B input = some b)
    (_hne : a.data.length ≠ b.data.length) :
    ∃ out : ImageData,
      node.execute input = some [(OUTPUT_MIX, out)]
      ∧ out.data.length = min a.data.length b.data.length
      ∧ (∃ out2 : ImageData,
          (MixRgba.new (1 / 2)).execute
              [(INPUT_A, ⟨[1, 0, 0, 1]⟩), (INPUT_B, ⟨[0, 1]⟩)]
            = some [(OUTPUT_MIX, out2)] ∧ out2.data.length = 2) := by
  refine ⟨⟨(a.data.zip b.data).map
      (fun ab => ab.1 * node.mix + ab.2 * (1 - node.mix))⟩, ?_, ?_,
      ⟨⟨[1 * (1 / 2) + 0 * (1 - 1 / 2), 0 * (1 / 2) + 1 * (1 - 1 / 2)]⟩, rfl, rfl⟩⟩
  · rw [execute_eq, hA, hB]
  · simp

theorem execute_truncates_to_shorter_input_witness :
    ∃ out : ImageData,
      (MixRgba.new (1 / 2)).execute
          [(INPUT_A, ⟨[1, 0, 0, 1]⟩), (INPUT_B, ⟨[0, 1]⟩)]
        = some [(OUTPUT_MIX, out)]
      ∧ out.data.length = 2
      ∧ (∃ out2 : ImageData,
          (MixRgba.new (1 / 2)).execute
              [(INPUT_A, ⟨[1, 0, 0, 1]⟩), (INPUT_B, ⟨[0, 1]⟩)]
            = some [(OUTPUT_MIX, out2)] ∧ out2.data.length = 2) := by
  have h := execute_truncates_to_shorter_input (MixRgba.new (1 / 2))
    [(INPUT_A, ⟨[1, 0, 0, 1]⟩), (INPUT_B, ⟨[0, 1]⟩)]
    ⟨[1, 0, 0, 1]⟩ ⟨[0, 1]⟩ rfl rfl (by decide)
  simpa using h

theorem has_connection_true {node : MixRgba} {slot : String} {p : Port}
    (h : node.has_connection slot p = true) :
    slot = OUTPUT_MIX ∧ p ∈ node.outputMix := by
  unfold MixRgba.has_connection MixRgba.output_destinations at h
  by_cases hs : slot = OUTPUT_MIX
  · subst hs
    simp at h
    exact ⟨rfl, h⟩
  · simp [hs] at h

theorem has_connection_out (node : MixRgba) (p : Port) :
    node.has_connection OUTPUT_MIX p = true ↔ p ∈ node.outputMix := by
  unfold MixRgba.has_connection MixRgba.output_destinations
  simp

theorem scan_remove_eq (slot : String) (toP : Port) :
    ∀ l, scan_remove slot toP l = some (removeFirstMatch slot toP l) := by
  intro l
  induction l with
  | nil => rfl
  | cons hd tl ih =>
    obtain ⟨name, node⟩ := hd
    by_cases hc : node.has_connection slot toP
    · obtain ⟨hs, _⟩ := has_connection_true hc
      subst hs
      simp [scan_remove, removeFirstMatch, hc, MixRgba.remove_output]
    · simp [scan_remove, removeFirstMatch, hc, ih]

theorem removeFirstMatch_keys (slot : String) (toP : Port) :
    ∀ l, (removeFirstMatch slot toP l).map Prod.fst = l.map Prod.fst := by
  intro l
  induction l with
  | nil => rfl
  | cons hd tl ih =>
    obtain ⟨name, node⟩ := hd
    by_cases hc : node.has_connection slot toP <;>
      simp [removeFirstMatch, hc, ih]

theorem update_first_keys (key : String) (f : MixRgba → MixRgba) :
    ∀ l, (update_first key f l).map Prod.fst = l.map Prod.fst := by
  intro l
  induction l with
  | nil => rfl
  | cons hd tl ih =>
    obtain ⟨name, node⟩ := hd
    by_cases hk : name = key <;> simp [update_first, hk, ih]

theorem update_node_eq (key : String) (f : MixRgba → Option MixRgba)
    (f2 : MixRgba → MixRgba) (hf : ∀ n, f n = some (f2 n)) :
    ∀ l, key ∈ l.map Prod.fst →
      update_node key f l = some (update_first key f2 l) := by
  intro l
  induction l with
  | nil =>
    intro h
    simp at h
  | cons hd tl ih =>
    obtain ⟨name, node⟩ := hd
    intro hmem
    by_cases hk : name = key
    · simp [update_node, update_first, hk, hf]
    · have hmem2 : key ∈ tl.map Prod.fst := by
        rw [List.map_cons] at hmem
        rcases List.mem_cons.mp hmem with h | h
        · exact absurd h.symm hk
        · exact h
      simp [update_node, update_first, hk, ih hmem2]

theorem update_node_none (key : String) (f : MixRgba → Option MixRgba) :
    ∀ l, key ∉ l.map Prod.fst → update_node key f l = none := by
  intro l
  induction l with
  | nil => intro _; rfl
  | cons hd tl ih =>
    obtain ⟨name, node⟩ := hd
    intro hmem
    have hk : name ≠ key := by
      intro e
      exact hmem (by simp [e])
    have h2 : key ∉ tl.map Prod.fst := by
      intro h
      exact hmem (by simp [h])
    simp [update_node, hk, ih h2]

theorem update_node_some_keys (key : String) (f : MixRgba → Option MixRgba) :
    ∀ l l2, update_node key f l = some l2 → l2.map Prod.fst = l.map Prod.fst := by
  intro l
  induction l with
  | nil =>
    intro l2 h
    simp [update_node] at h
  | cons hd tl ih =>
    obtain ⟨name, node⟩ := hd
    intro l2 h
    by_cases hk : name = key
    · subst hk
      simp [update_node] at h
      cases hf : f node with
      | none => rw [hf] at h; simp at h
      | some node2 =>
        rw [hf] at h
        simp at h
        subst h
        simp
    · simp [update_node, hk] at h
      cases hr : update_node key f tl with
      | none => rw [hr] at h; simp at h
      | some rest2 =>
        rw [hr] at h
        simp at h
        subst h
        simp [ih rest2 hr]

theorem connect_output_eq (toP : Port) (n : MixRgba) :
    n.connect_output OUTPUT_MIX toP = some (append_output toP n) := by
  simp [MixRgba.connect_output, append_output]

theorem connect_input_eq (slot : String) (fromP : Port) (n : MixRgba)
    (h : slot = INPUT_A ∨ slot = INPUT_B) :
    n.connect_input slot fromP = some (set_input slot fromP n) := by
  rcases h with h | h <;> subst h <;>
    simp [MixRgba.connect_input, set_input, input_a_ne_input_b,
      Ne.symm input_a_ne_input_b]

theorem connect_eq_spec (g : NodeGraph) (fromP toP : Port)
    (hfrom : fromP.node_name ∈ g.nodes.map Prod.fst)
    (hto : toP.node_name ∈ g.nodes.map Prod.fst)
    (hslotF : fromP.slot_name = OUTPUT_MIX)
    (hslotT : toP.slot_name = INPUT_A ∨ toP.slot_name = INPUT_B) :
    g.connect fromP toP = some (connect_spec g fromP toP) := by
  have h1 : update_node fromP.node_name
      (fun node => node.connect_output fromP.slot_name toP)
      (removeFirstMatch fromP.slot_name toP g.nodes)
      = some (update_first fromP.node_name (append_output toP)
          (removeFirstMatch fromP.slot_name toP g.nodes)) := by
    apply update_node_eq
    · intro n
      rw [hslotF]
      exact connect_output_eq toP n
    · rw [removeFirstMatch_keys]
      exact hfrom
  have h2 : update_node toP.node_name
      (fun node => node.connect_input toP.slot_name fromP)
      (update_first fromP.node_name (append_output toP)
        (removeFirstMatch fromP.slot_name toP g.nodes))
      = some (update_first toP.node_name (set_input toP.slot_name fromP)
          (update_first fromP.node_name (append_output toP)
            (removeFirstMatch fromP.slot_name toP g.nodes))) := by
    apply update_node_eq
    · intro n
      exact connect_input_eq toP.slot_name fromP n hslotT
    · rw [update_first_keys, removeFirstMatch_keys]
      exact hto
  unfold NodeGraph.connect connect_spec
  rw [scan_remove_eq]
  simp only [Option.bind_eq_bind, Option.some_bind]
  rw [h1]
  simp only [Option.some_bind]
  rw [h2]
  rfl

/-- C1: connect performs exactly the two-phase protocol. -/
theorem connect_follows_two_phase_protocol (g : NodeGraph) (fromP toP : Port)
    (hfrom : fromP.node_name ∈ g.nodes.map Prod.fst)
    (hto : toP.node_name ∈ g.nodes.map Prod.fst)
    (hslotF : fromP.slot_name = OUTPUT_MIX)
    (hslotT : toP.slot_name = INPUT_A ∨ toP.slot_name = INPUT_B) :
    g.connect fromP toP = some (connect_spec g fromP toP) :=
  connect_eq_spec g fromP toP hfrom hto hslotF hslotT

theorem connect_follows_two_phase_protocol_witness :
    (NodeGraph.mk [("a", MixRgba.new 1), ("b", MixRgba.new 0)]).connect
        ⟨"a", OUTPUT_MIX⟩ ⟨"b", INPUT_A⟩
      = some (connect_spec (NodeGraph.mk [("a", MixRgba.new 1), ("b", MixRgba.new 0)])
          ⟨"a", OUTPUT_MIX⟩ ⟨"b", INPUT_A⟩) :=
  connect_follows_two_phase_protocol _ _ _ (by decide) (by decide) rfl (Or.inl rfl)

/-- C8: panic conditions of the slot operations and of connect; the query
operations return nothing instead. -/
theorem fatal_error_conditions (node : MixRgba) (slot : String) (p : Port)
    (g : NodeGraph) (fromP toP : Port) :
    (node.connect_input slot p = none ↔ ¬(slot = INPUT_A ∨ slot = INPUT_B))
    ∧ (node.connect_output slot p = none ↔ slot ≠ OUTPUT_MIX)
    ∧ (node.remove_output slot p = none ↔ slot ≠ OUTPUT_MIX)
    ∧ ((fromP.node_name ∉ g.nodes.map Prod.fst ∨ toP.node_name ∉ g.nodes.map Prod.fst) →
        g.connect fromP toP = none)
    ∧ (¬(slot = INPUT_A ∨ slot = INPUT_B) → node.input_source slot = none)
    ∧ (slot ≠ OUTPUT_MIX → node.output_destinations slot = none) := by
  refine ⟨?_, ?_, ?_, ?_, ?_, ?_⟩
  · unfold MixRgba.connect_input
    by_cases h1 : slot = INPUT_A <;> by_cases h2 : slot = INPUT_B <;>
      simp [h1, h2, Ne.symm input_a_ne_input_b]
  · unfold MixRgba.connect_output
    by_cases h : slot = OUTPUT_MIX <;> simp [h]
  · unfold MixRgba.remove_output
    by_cases h : slot = OUTPUT_MIX <;> simp [h]
  · intro hmiss
    unfold NodeGraph.connect
    rw [scan_remove_eq]
    simp only [Option.bind_eq_bind, Option.some_bind]
    rcases hmiss with hmiss | hmiss
    · rw [update_node_none _ _ _ (by rw [removeFirstMatch_keys]; exact hmiss)]
      rfl
    · cases h2 : update_node fromP.node_name
          (fun node => node.connect_output fromP.slot_name toP)
          (removeFirstMatch fromP.slot_name toP g.nodes) with
      | none => rfl
      | some nodes2 =>
        simp only [Option.some_bind]
        rw [update_node_none _ _ _ (by
          rw [update_node_some_keys _ _ _ _ h2, removeFirstMatch_keys]; exact hmiss)]
        rfl
  · intro h
    unfold MixRgba.input_source
    simp only [not_or] at h
    simp [h.1, h.2]
  · intro h
    unfold MixRgba.output_destinations
    simp [h]

theorem fatal_error_conditions_witness :
    (MixRgba.new 1).connect_input "NO_SLOT" ⟨"x", "y"⟩ = none
    ∧ (MixRgba.new 1).connect_output "NO_SLOT" ⟨"x", "y"⟩ = none
    ∧ (MixRgba.new 1).remove_output "NO_SLOT" ⟨"x", "y"⟩ = none
    ∧ NodeGraph.new.connect ⟨"a", OUTPUT_MIX⟩ ⟨"b", INPUT_A⟩ = none
    ∧ (MixRgba.new 1).input_source "NO_SLOT" = none
    ∧ (MixRgba.new 1).output_destinations "NO_SLOT" = none := by
  have h := fatal_error_conditions (MixRgba.new 1) "NO_SLOT" ⟨"x", "y"⟩
    NodeGraph.new ⟨"a", OUTPUT_MIX⟩ ⟨"b", INPUT_A⟩
  exact ⟨h.1.mpr (by decide), h.2.1.mpr (by decide), h.2.2.1.mpr (by decide),
    h.2.2.2.1 (Or.inl (by decide)), h.2.2.2.2.1 (by decide), h.2.2.2.2.2 (by decide)⟩

/-- C2: the single-source scenario ends with n2 fed from n3 on both inputs
and n1's destination list empty. -/
theorem single_source_scenario_final_state :
    (single_source_scenario.bind (fun g =>
        (alookup "MixRgba1" g.nodes).bind (fun n2 => n2.input_source INPUT_A)))
      = some ⟨"MixRgba2", OUTPUT_MIX⟩
    ∧ (single_source_scenario.bind (fun g =>
        (alookup "MixRgba1" g.nodes).bind (fun n2 => n2.input_source INPUT_B)))
      = some ⟨"MixRgba2", OUTPUT_MIX⟩
    ∧ (single_source_scenario.bind (fun g =>
        (alookup "MixRgba" g.nodes).bind
          (fun n1 => n1.output_destinations OUTPUT_MIX)))
      = some [] := by
  refine ⟨?_, ?_, ?_⟩ <;> decide

theorem set_input_append_output_comm (slot : String) (p q : Port) (n : MixRgba) :
    set_input slot p (append_output q n) = append_output q (set_input slot p n) := by
  unfold set_input append_output
  by_cases h1 : slot = INPUT_A <;> by_cases h2 : slot = INPUT_B <;>
    simp [h1, h2, Ne.symm input_a_ne_input_b]

theorem set_input_idem (slot : String) (p : Port) (n : MixRgba) :
    set_input slot p (set_input slot p n) = set_input slot p n := by
  unfold set_input
  by_cases h1 : slot = INPUT_A <;> by_cases h2 : slot = INPUT_B <;>
    simp [h1, h2, Ne.symm input_a_ne_input_b]

theorem set_input_outputMix (slot : String) (p : Port) (n : MixRgba) :
    (set_input slot p n).outputMix = n.outputMix := by
  unfold set_input
  by_cases h1 : slot = INPUT_A <;> by_cases h2 : slot = INPUT_B <;>
    simp [h1, h2, Ne.symm input_a_ne_input_b]

theorem update_first_comm (k1 k2 : String) (f1 f2 : MixRgba → MixRgba)
    (hcomm : ∀ n, f1 (f2 n) = f2 (f1 n)) :
    ∀ l, update_first k1 f1 (update_first k2 f2 l)
        = update_first k2 f2 (update_first k1 f1 l) := by
  intro l
  induction l with
  | nil => rfl
  | cons hd tl ih =>
    obtain ⟨name, node⟩ := hd
    by_cases h1 : name = k1 <;> by_cases h2 : name = k2
    · simp only [update_first, if_pos h1, if_pos h2]
      simp only [update_first, if_pos h1, if_pos h2, hcomm]
    · simp only [update_first, if_pos h1, if_neg h2]
    · simp only [update_first, if_neg h1, if_pos h2]
    · simp only [update_first, if_neg h1, if_neg h2]
      simp only [update_first, if_neg h1, if_neg h2, ih]

theorem update_first_idem (k : String) (f : MixRgba → MixRgba)
    (hf : ∀ n, f (f n) = f n) :
    ∀ l, update_first k f (update_first k f l) = update_first k f l := by
  intro l
  induction l with
  | nil => rfl
  | cons hd tl ih =>
    obtain ⟨name, node⟩ := hd
    by_cases h : name = k <;> simp [update_first, h, hf, ih]

theorem has_connection_false {node : MixRgba} {p : Port}
    (h : p ∉ node.outputMix) :
    node.has_connection OUTPUT_MIX p = false := by
  simp [MixRgba.has_connection, MixRgba.output_destinations, h]

theorem clean_after_removal (toP : Port) :
    ∀ l : List (String × MixRgba),
      l.countP (fun e => e.2.has_connection OUTPUT_MIX toP) ≤ 1 →
      ∀ e ∈ removeFirstMatch OUTPUT_MIX toP l, toP ∉ e.2.outputMix := by
  intro l
  induction l with
  | nil =>
    intro _ e he
    simp [removeFirstMatch] at he
  | cons hd tl ih =>
    obtain ⟨name, node⟩ := hd
    intro hcount e he
    by_cases hc : node.has_connection OUTPUT_MIX toP = true
    · simp only [removeFirstMatch, hc, if_true] at he
      have hc0 : tl.countP (fun e => e.2.has_connection OUTPUT_MIX toP) = 0 := by
        have hcadd : ((name, node) :: tl).countP
            (fun e => e.2.has_connection OUTPUT_MIX toP)
            = tl.countP (fun e => e.2.has_connection OUTPUT_MIX toP) + 1 := by
          rw [List.countP_cons]
          simp [hc]
        rw [hcadd] at hcount
        omega
      rcases List.mem_cons.mp he with he | he
      · subst he
        simp [List.mem_filter]
      · have := List.countP_eq_zero.mp hc0 e he
        intro hmem
        exact this (by rw [has_connection_out]; exact hmem)
    · simp only [removeFirstMatch, hc, if_false] at he
      rcases List.mem_cons.mp he with he | he
      · subst he
        intro hmem
        exact hc (by rw [has_connection_out]; exact hmem)
      · apply ih ?_ e he
        rw [List.countP_cons] at hcount
        omega

theorem update_first_clean (toP : Port) (key : String) (f : MixRgba → MixRgba)
    (hf : ∀ n, (f n).outputMix = n.outputMix) :
    ∀ l, (∀ e ∈ l, toP ∉ e.2.outputMix) →
      ∀ e ∈ update_first key f l, toP ∉ e.2.outputMix := by
  intro l
  induction l with
  | nil =>
    intro _ e he
    simp [update_first] at he
  | cons hd tl ih =>
    obtain ⟨name, node⟩ := hd
    intro hcl e he
    by_cases hk : name = key
    · simp only [update_first, hk, if_true] at he
      rcases List.mem_cons.mp he with he | he
      · subst he
        rw [Prod.snd, hf]
        exact hcl (name, node) (by simp)
      · exact hcl e (by simp [he])
    · simp only [update_first, hk, if_false] at he
      rcases List.mem_cons.mp he with he | he
      · subst he
        exact hcl (name, node) (by simp)
      · exact ih (fun e2 he2 => hcl e2 (by simp [he2])) e he

theorem removal_undoes_append (toP : Port) (key : String) :
    ∀ l : List (String × MixRgba),
      (∀ e ∈ l, toP ∉ e.2.outputMix) →
      key ∈ l.map Prod.fst →
      removeFirstMatch OUTPUT_MIX toP (update_first key (append_output toP) l) = l := by
  intro l
  induction l with
  | nil =>
    intro _ h
    simp at h
  | cons hd tl ih =>
    obtain ⟨name, node⟩ := hd
    intro hcl hmem
    by_cases hk : name = key
    · have hc : (append_output toP node).has_connection OUTPUT_MIX toP = true := by
        rw [has_connection_out]
        simp [append_output]
      have hn : toP ∉ node.outputMix := hcl (name, node) (by simp)
      have hfil : (node.outputMix ++ [toP]).filter
          (fun port => decide (port ≠ toP)) = node.outputMix := by
        rw [List.filter_append]
        have h1 : node.outputMix.filter (fun port => decide (port ≠ toP))
            = node.outputMix := by
          apply List.filter_eq_self.mpr
          intro a ha
          simp only [decide_eq_true_eq]
          intro e
          subst e
          exact hn ha
        have h2 : ([toP] : List Port).filter (fun port => decide (port ≠ toP)) = [] := by
          simp
        rw [h1, h2, List.append_nil]
      simp only [update_first, hk, if_true, removeFirstMatch, hc, if_true]
      rw [show (append_output toP node).outputMix = node.outputMix ++ [toP] from rfl]
      rw [hfil]
      rfl
    · have hc : node.has_connection OUTPUT_MIX toP = false :=
        has_connection_false (hcl (name, node) (by simp))
      simp only [update_first, if_neg hk]
      have hcp : ¬node.has_connection OUTPUT_MIX toP = true := by
        rw [hc]
        exact Bool.false_ne_true
      simp only [removeFirstMatch, if_neg hcp]
      have hmem2 : key ∈ tl.map Prod.fst := by
        rw [List.map_cons] at hmem
        rcases List.mem_cons.mp hmem with h | h
        · exact absurd h.symm hk
        · exact h
      rw [ih (fun e2 he2 => hcl e2 (by simp [he2])) hmem2]

/-- C9: under the single-holder precondition, connect is idempotent. -/
theorem connect_idempotent (g : NodeGraph) (fromP toP : Port)
    (hfrom : fromP.node_name ∈ g.nodes.map Prod.fst)
    (hto : toP.node_name ∈ g.nodes.map Prod.fst)
    (hslotF : fromP.slot_name = OUTPUT_MIX)
    (hslotT : toP.slot_name = INPUT_A ∨ toP.slot_name = INPUT_B)
    (hcount : g.nodes.countP
        (fun e => e.2.has_connection fromP.slot_name toP) ≤ 1) :
    (g.connect fromP toP).bind (fun g2 => g2.connect fromP toP)
      = g.connect fromP toP := by
  have h1 := connect_eq_spec g fromP toP hfrom hto hslotF hslotT
  have hk1 : (connect_spec g fromP toP).nodes.map Prod.fst = g.nodes.map Prod.fst := by
    unfold connect_spec
    rw [update_first_keys, update_first_keys, removeFirstMatch_keys]
  have h2 := connect_eq_spec (connect_spec g fromP toP) fromP toP
    (by rw [hk1]; exact hfrom) (by rw [hk1]; exact hto) hslotF hslotT
  rw [h1, Option.some_bind, h2]
  congr 1
  unfold connect_spec
  congr 1
  rw [hslotF] at hcount ⊢
  have hclean : ∀ e ∈ removeFirstMatch OUTPUT_MIX toP g.nodes, toP ∉ e.2.outputMix :=
    clean_after_removal toP g.nodes hcount
  have hcomm : ∀ n, set_input toP.slot_name fromP (append_output toP n)
      = append_output toP (set_input toP.slot_name fromP n) :=
    fun n => set_input_append_output_comm _ _ _ n
  have hswap : update_first toP.node_name (set_input toP.slot_name fromP)
      (update_first fromP.node_name (append_output toP)
        (removeFirstMatch OUTPUT_MIX toP g.nodes))
      = update_first fromP.node_name (append_output toP)
          (update_first toP.node_name (set_input toP.slot_name fromP)
            (removeFirstMatch OUTPUT_MIX toP g.nodes)) :=
    update_first_comm _ _ _ _ hcomm _
  rw [hswap]
  have hcleanI : ∀ e ∈ update_first toP.node_name (set_input toP.slot_name fromP)
      (removeFirstMatch OUTPUT_MIX toP g.nodes), toP ∉ e.2.outputMix :=
    update_first_clean toP _ _ (fun n => set_input_outputMix _ _ n) _ hclean
  have hundo : removeFirstMatch OUTPUT_MIX toP
      (update_first fromP.node_name (append_output toP)
        (update_first toP.node_name (set_input toP.slot_name fromP)
          (removeFirstMatch OUTPUT_MIX toP g.nodes)))
      = update_first toP.node_name (set_input toP.slot_name fromP)
          (removeFirstMatch OUTPUT_MIX toP g.nodes) :=
    removal_undoes_append toP fromP.node_name _ hcleanI
      (by rw [update_first_keys, removeFirstMatch_keys]; exact hfrom)
  rw [hundo, ← hswap]
  rw [update_first_idem _ _ (fun n => set_input_idem _ _ n)]

theorem connect_idempotent_witness :
    ((NodeGraph.mk [("a", MixRgba.new 1), ("b", MixRgba.new 0)]).connect
        ⟨"a", OUTPUT_MIX⟩ ⟨"b", INPUT_A⟩).bind
      (fun g2 => g2.connect ⟨"a", OUTPUT_MIX⟩ ⟨"b", INPUT_A⟩)
      = (NodeGraph.mk [("a", MixRgba.new 1), ("b", MixRgba.new 0)]).connect
          ⟨"a", OUTPUT_MIX⟩ ⟨"b", INPUT_A⟩ :=
  connect_idempotent _ _ _ (by decide) (by decide) rfl (Or.inl rfl) (by decide)

theorem digitChar_toNat : ∀ n : Nat, n < 10 → (Nat.digitChar n).toNat = 48 + n := by
  decide

theorem toDigitsCore_acc (b : Nat) :
    ∀ (fuel n : Nat) (ds : List Char),
      Nat.toDigitsCore b fuel n ds = Nat.toDigitsCore b fuel n [] ++ ds := by
  intro fuel
  induction fuel with
  | zero => intro n ds; rfl
  | succ f ih =>
    intro n ds
    unfold Nat.toDigitsCore
    by_cases h : n / b = 0
    · simp [h]
    · simp only [h, if_false]
      rw [ih (n / b) [Nat.digitChar (n % b)], ih (n / b) (Nat.digitChar (n % b) :: ds),
        List.append_assoc]
      rfl

theorem listVal_append_singleton (l : List Char) (c : Char) :
    listVal (l ++ [c]) = listVal l * 10 + charVal c := by
  simp [listVal, List.foldl_append]

theorem listVal_toDigitsCore :
    ∀ (fuel n : Nat), n < 10 ^ fuel →
      listVal (Nat.toDigitsCore 10 fuel n []) = n := by
  intro fuel
  induction fuel with
  | zero =>
    intro n h
    simp at h
    subst h
    rfl
  | succ f ih =>
    intro n h
    unfold Nat.toDigitsCore
    by_cases h0 : n / 10 = 0
    · have hn : n < 10 := by omega
      have hd := digitChar_toNat (n % 10) (Nat.mod_lt _ (by norm_num))
      simp only [h0, if_true]
      simp [listVal, charVal, hd]
      omega
    · simp only [h0, if_false]
      rw [toDigitsCore_acc, listVal_append_singleton]
      have hlt : n / 10 < 10 ^ f := by
        have hp : (10 : Nat) ^ (f + 1) = 10 * 10 ^ f := by ring
        rw [hp] at h
        exact Nat.div_lt_of_lt_mul h
      rw [ih _ hlt]
      have hd := digitChar_toNat (n % 10) (Nat.mod_lt _ (by norm_num))
      unfold charVal
      rw [hd]
      omega

theorem nat_lt_ten_pow (n : Nat) : n < 10 ^ (n + 1) :=
  lt_of_lt_of_le (Nat.lt_two_pow n)
    (le_trans (Nat.pow_le_pow_left (by norm_num) n)
      (Nat.pow_le_pow_right (by norm_num) (Nat.le_succ n)))

theorem toDigits_inj : ∀ m n : Nat, Nat.toDigits 10 m = Nat.toDigits 10 n → m = n := by
  intro m n hl
  have h1 := listVal_toDigitsCore (m + 1) m (nat_lt_ten_pow m)
  have h2 := listVal_toDigitsCore (n + 1) n (nat_lt_ten_pow n)
  unfold Nat.toDigits at hl
  rw [hl, h2] at h1
  exact h1.symm

theorem toDigits_ne_nil (n : Nat) : Nat.toDigits 10 n ≠ [] := by
  unfold Nat.toDigits Nat.toDigitsCore
  by_cases h : n / 10 = 0
  · simp [h]
  · simp only [h, if_false]
    rw [toDigitsCore_acc]
    simp

theorem format_name_inj (s : String) :
    ∀ i j : Nat, format_name s i = format_name s j → i = j := by
  intro i j h
  unfold format_name at h
  have hd : (if i = 0 then "" else Nat.repr i).data
      = (if j = 0 then "" else Nat.repr j).data := by
    have h2 := congrArg String.data h
    rw [String.data_append, String.data_append] at h2
    exact List.append_cancel_left h2
  by_cases hi : i = 0 <;> by_cases hj : j = 0
  · rw [hi, hj]
  · rw [if_pos hi, if_neg hj] at hd
    have hnil : Nat.toDigits 10 j = [] := hd.symm
    exact absurd hnil (toDigits_ne_nil j)
  · rw [if_neg hi, if_pos hj] at hd
    have hnil : Nat.toDigits 10 i = [] := hd
    exact absurd hnil (toDigits_ne_nil i)
  · rw [if_neg hi, if_neg hj] at hd
    exact toDigits_inj i j hd

theorem alookup_isSome_mem {α : Type} (k : String) :
    ∀ l : List (String × α), (alookup k l).isSome = true → k ∈ l.map Prod.fst := by
  intro l
  induction l with
  | nil =>
    intro h
    exact Bool.noConfusion h
  | cons hd tl ih =>
    obtain ⟨k2, v⟩ := hd
    intro h
    by_cases h2 : k2 = k
    · simp [h2]
    · simp only [alookup, if_neg h2] at h
      simp [ih h]

theorem alookup_append_of_isSome {α : Type} (k : String) :
    ∀ l l2 : List (String × α), (alookup k l).isSome = true →
      alookup k (l ++ l2) = alookup k l := by
  intro l l2
  induction l with
  | nil =>
    intro h
    exact Bool.noConfusion h
  | cons hd tl ih =>
    obtain ⟨k2, v⟩ := hd
    intro h
    by_cases h2 : k2 = k
    · simp [alookup, h2]
    · simp only [List.cons_append, alookup, if_neg h2] at h ⊢
      exact ih h

theorem exists_free_index (g : NodeGraph) (s : String) :
    ∃ i, i ≤ g.nodes.length ∧ g.contains_key (format_name s i) = false := by
  by_contra hcon
  push_neg at hcon
  have hall : ∀ i, i ≤ g.nodes.length → format_name s i ∈ g.nodes.map Prod.fst := by
    intro i hi
    have hne := hcon i hi
    have hb : g.contains_key (format_name s i) = true := by
      cases hb : g.contains_key (format_name s i)
      · exact absurd hb hne
      · rfl
    exact alookup_isSome_mem _ _ hb
  have hsub : (Finset.range (g.nodes.length + 1)).image (format_name s)
      ⊆ (g.nodes.map Prod.fst).toFinset := by
    intro x hx
    rw [Finset.mem_image] at hx
    obtain ⟨i, hi, rfl⟩ := hx
    rw [List.mem_toFinset]
    exact hall i (Nat.lt_succ_iff.mp (Finset.mem_range.mp hi))
  have hcard1 : ((Finset.range (g.nodes.length + 1)).image (format_name s)).card
      = g.nodes.length + 1 := by
    rw [Finset.card_image_of_injective _ (fun a b hab => format_name_inj s a b hab),
      Finset.card_range]
  have hcard2 : ((g.nodes.map Prod.fst).toFinset).card ≤ g.nodes.length := by
    calc ((g.nodes.map Prod.fst).toFinset).card
        ≤ (g.nodes.map Prod.fst).length := List.toFinset_card_le _
      _ = g.nodes.length := List.length_map _ _
  have hle := Finset.card_le_card hsub
  omega

theorem findIndex_spec (g : NodeGraph) (s : String) :
    ∀ fuel i : Nat,
      (∃ k, i ≤ k ∧ k < i + fuel ∧ g.contains_key (format_name s k) = false) →
      g.contains_key (format_name s (findIndex g s i fuel)) = false
      ∧ i ≤ findIndex g s i fuel
      ∧ ∀ j, i ≤ j → j < findIndex g s i fuel →
          g.contains_key (format_name s j) = true := by
  intro fuel
  induction fuel with
  | zero =>
    intro i h
    obtain ⟨k, h1, h2, _⟩ := h
    omega
  | succ f ih =>
    intro i h
    obtain ⟨k, h1, h2, h3⟩ := h
    by_cases hc : g.contains_key (format_name s i) = true
    · have hki : k ≠ i := by
        intro e
        rw [e, hc] at h3
        cases h3
      have hrec := ih (i + 1) ⟨k, by omega, by omega, h3⟩
      have hfi : findIndex g s i (f + 1) = findIndex g s (i + 1) f := by
        show (if g.contains_key (format_name s i) = true
          then findIndex g s (i + 1) f else i) = findIndex g s (i + 1) f
        rw [if_pos hc]
      rw [hfi]
      refine ⟨hrec.1, le_trans (Nat.le_succ i) hrec.2.1, ?_⟩
      intro j hj1 hj2
      by_cases hji : j = i
      · rw [hji]
        exact hc
      · exact hrec.2.2 j (by omega) hj2
    · have hcf : g.contains_key (format_name s i) = false := by
        cases hb : g.contains_key (format_name s i)
        · rfl
        · exact absurd hb hc
      have hfi : findIndex g s i (f + 1) = i := by
        show (if g.contains_key (format_name s i) = true
          then findIndex g s (i + 1) f else i) = i
        rw [if_neg hc]
      rw [hfi]
      exact ⟨hcf, le_refl i,
        fun j hj1 hj2 => absurd (lt_of_le_of_lt hj1 hj2) (lt_irrefl i)⟩

/-- C3: add inserts under the smallest free suffix of the kind name and
never overwrites an existing node. -/
theorem add_generates_smallest_fresh_name (g : NodeGraph) (node : MixRgba) :
    (∃ i, (g.add node).1 = format_name node.name i
        ∧ g.contains_key (format_name node.name i) = false
        ∧ ∀ j, j < i → g.contains_key (format_name node.name j) = true)
    ∧ (g.add node).2.nodes = g.nodes ++ [((g.add node).1, node)]
    ∧ g.contains_key (g.add node).1 = false
    ∧ (∀ k, g.contains_key k = true →
        alookup k (g.add node).2.nodes = alookup k g.nodes)
    ∧ (NodeGraph.new.add (MixRgba.new 1)).1 = "MixRgba"
    ∧ ((NodeGraph.new.add (MixRgba.new 1)).2.add (MixRgba.new 1)).1 = "MixRgba1"
    ∧ (((NodeGraph.new.add (MixRgba.new 1)).2.add (MixRgba.new 1)).2.add
        (MixRgba.new 1)).1 = "MixRgba2" := by
  obtain ⟨i0, hle, hfree⟩ := exists_free_index g node.name
  have hspec := findIndex_spec g node.name (g.nodes.length + 1) 0
    ⟨i0, Nat.zero_le _, by omega, hfree⟩
  refine ⟨⟨findIndex g node.name 0 (g.nodes.length + 1), rfl, hspec.1, ?_⟩,
    rfl, hspec.1, ?_, by decide, by decide, by decide⟩
  · intro j hj
    exact hspec.2.2 j (Nat.zero_le j) hj
  · intro k hk
    exact alookup_append_of_isSome k g.nodes _ hk

theorem add_generates_smallest_fresh_name_witness :
    NodeGraph.new.contains_key (NodeGraph.new.add (MixRgba.new 1)).1 = false :=
  (add_generates_smallest_fresh_name NodeGraph.new (MixRgba.new 1)).2.2.1
